import Mathlib

/-!
Verification of the response-normalization and citation-extraction core of
`web_app.py` (the medichat repository).

The Python functions `_extract_document_titles_from_citations`,
`_extract_pdf_filenames_from_citations`, `_format_one_line_bullets`,
`_remove_bold_markdown` and `_finalize_output` are shallowly embedded below.

Python values reachable by the extractors are modelled by the inductive type
`PyVal` (None, bool, int, str, list, dict with string keys).  A computation
that may raise a Python exception is modelled in `PyM := Except Unit`; the
broad `try/except Exception: pass` blocks of the source correspond to
catching the `Except.error` case while keeping the partially accumulated
results, exactly as the Python interpreter would.  Points of the source that
can raise (attribute access `.get` on a non-dict, iteration of a non-iterable,
`str.lower` on a non-string, hashing an unhashable value in the final
de-duplication `set`) are the points that return `Except.error` here.

Python strings are modelled by `String`; the string methods used by the source
(`replace`, `lstrip`, `rstrip`, `lower`, `endswith`, `in`, `os.path.basename`,
`split("?")[0]`, `", ".join`) are embedded as explicit `List Char` functions.
`Char.toLower` (ASCII case folding) stands in for `str.lower`; the two agree
on every character relevant to the `".pdf"` suffix test.
-/

/-- A Python value, as far as the citation extractors can observe one:
`None`, `bool`, `int`, `str`, `list`, and `dict` with string keys
(Python dicts have unique keys; lookup takes the first binding). -/
inductive PyVal where
  | vNone
  | vBool (b : Bool)
  | vInt (n : Int)
  | vStr (s : String)
  | vList (xs : List PyVal)
  | vDict (kvs : List (String × PyVal))

/-- Exception-aware computations: `Except.error ()` models a raised Python
exception (AttributeError, TypeError, ...). -/
abbrev PyM (α : Type) := Except Unit α

/-- Python truthiness: `None`, `False`, `0`, `""`, `[]`, `{}` are falsy. -/
def pyTruthy : PyVal → Bool
  | .vNone => false
  | .vBool b => b
  | .vInt n => decide (n ≠ 0)
  | .vStr s => decide (s.data ≠ [])
  | .vList xs => !xs.isEmpty
  | .vDict kvs => !kvs.isEmpty

/-- The Python idiom `x or {}`: `x` if truthy, else an empty dict. -/
def pyOrDict (v : PyVal) : PyVal :=
  if pyTruthy v then v else .vDict []

/-- First binding of a key in an association list (Python dict lookup). -/
def pyLookup (key : String) : List (String × PyVal) → Option PyVal
  | [] => Option.none
  | kv :: rest => if kv.1 = key then some kv.2 else pyLookup key rest

/-- `v.get(key, dflt)`: dict lookup with default; raises (AttributeError)
on any non-dict receiver, as Python does. -/
def pyGet (v : PyVal) (key : String) (dflt : PyVal) : PyM PyVal :=
  match v with
  | .vDict kvs => .ok ((pyLookup key kvs).getD dflt)
  | _ => .error ()

/-- Python iteration (`for x in v` / `list.extend(v)`): lists yield elements,
strings yield one-character strings, dicts yield their keys; everything else
raises TypeError. -/
def pyIter : PyVal → PyM (List PyVal)
  | .vList xs => .ok xs
  | .vStr s => .ok (s.data.map (fun c => .vStr (String.mk [c])))
  | .vDict kvs => .ok (kvs.map (fun kv => PyVal.vStr kv.1))
  | _ => .error ()

/-- `os.path.basename` on POSIX: the suffix after the last `'/'`. -/
def pyBasename (s : String) : String :=
  String.mk ((s.data.reverse.takeWhile (fun c => decide (c ≠ '/'))).reverse)

/-- `.split("?")[0]`: the prefix before the first `'?'`. -/
def stripAfterQuery (s : String) : String :=
  String.mk (s.data.takeWhile (fun c => decide (c ≠ '?')))

/-- ASCII model of `str.lower`. -/
def pyLower (s : String) : String :=
  String.mk (s.data.map Char.toLower)

/-- `name.lower().endswith(".pdf")`. -/
def hasPdfSuffix (s : String) : Bool :=
  List.isSuffixOf (".pdf").data (pyLower s).data

/-- The hash key of a hashable Python value (`None`, `bool`, `int`, `str`);
`True` hashes like `1` and `False` like `0`.  Lists and dicts are unhashable
(`Option.none`). -/
inductive HKey where
  | hNone
  | hInt (n : Int)
  | hStr (s : String)
deriving DecidableEq

/-- `pyHashKey v = some k` iff `v` is hashable, with Python's cross-type
equalities (`True == 1`, `False == 0`) folded into the key. -/
def pyHashKey : PyVal → Option HKey
  | .vNone => some .hNone
  | .vBool b => some (.hInt (if b then 1 else 0))
  | .vInt n => some (.hInt n)
  | .vStr s => some (.hStr s)
  | _ => Option.none

/-- The `seen = set(); for t in titles: ...` de-duplication loop shared by both
extractors.  Hashing an unhashable value raises TypeError — this loop runs
OUTSIDE the `try/except` of the source, so that error escapes the function. -/
def dedupSeen : List PyVal → List HKey → PyM (List PyVal)
  | [], _ => .ok []
  | t :: ts, seen =>
    match pyHashKey t with
    | Option.none => .error ()
    | some k =>
      if k ∈ seen then dedupSeen ts seen
      else do
        let rest ← dedupSeen ts (k :: seen)
        .ok (t :: rest)

/-- `(rag_response or {}).get("citations", [])`. -/
def citationsOf (rag_response : PyVal) : PyM PyVal :=
  pyGet (pyOrDict rag_response) "citations" (.vList [])

/-- The loop `for c in raw_citations: retrieved_refs.extend((c or {}).get("retrievedReferences", []))`. -/
def extendRefs : List PyVal → List PyVal → PyM (List PyVal)
  | [], acc => .ok acc
  | c :: cs, acc => do
    let v ← pyGet (pyOrDict c) "retrievedReferences" (.vList [])
    let xs ← pyIter v
    extendRefs cs (acc ++ xs)

/-- Normalization of the two supported `citations` shapes into one flat
reference list (`isinstance(raw_citations, dict)` / `list` branches of both
extractors; any other shape yields the empty list). -/
def gatherRefs : PyVal → PyM (List PyVal)
  | .vDict kvs => do
    let v ← pyGet (.vDict kvs) "retrievedReferences" (.vList [])
    pyIter v
  | .vList cs => extendRefs cs []
  | _ => .ok []

/-- Per-reference body of the titles loop: metadata title keys first, then the
`location` fallback (s3 URI preferred over web URL, basename minus query
string, with the inner `try/except` that keeps the raw value if
`os.path.basename` raises).  Returns `some t` when `titles.append(t)` runs. -/
def titleOfRef (ref : PyVal) : PyM (Option PyVal) := do
  let mraw ← pyGet (pyOrDict ref) "metadata" (.vDict [])
  let metadata := pyOrDict mraw
  let t1 ← pyGet metadata "x-amz-bedrock-kb-document-title" .vNone
  let t2 ← pyGet metadata "x-amzn-bedrock-kb-doc-title" .vNone
  let title := if pyTruthy t1 then t1 else t2
  if pyTruthy title then
    return some title
  else
    let lraw ← pyGet (pyOrDict ref) "location" (.vDict [])
    let location := pyOrDict lraw
    let s3loc ← pyGet location "s3Location" (.vDict [])
    let s3_uri ← pyGet (pyOrDict s3loc) "uri" .vNone
    let webloc ← pyGet location "webLocation" (.vDict [])
    let web_url ← pyGet (pyOrDict webloc) "url" .vNone
    let uri_or_url := if pyTruthy s3_uri then s3_uri
      else if pyTruthy web_url then web_url else .vStr ""
    let title2 :=
      if pyTruthy uri_or_url then
        match uri_or_url with
        | .vStr s => PyVal.vStr (stripAfterQuery (pyBasename s))
        | other => other
      else title
    return if pyTruthy title2 then some title2 else Option.none

/-- The `for ref in retrieved_refs` loop of the titles extractor: a raised
exception is caught by the outer `except`, keeping the titles gathered so
far. -/
def titlesLoop : List PyVal → List PyVal → List PyVal
  | [], acc => acc
  | ref :: rest, acc =>
    match titleOfRef ref with
    | .error _ => acc
    | .ok Option.none => titlesLoop rest acc
    | .ok (some t) => titlesLoop rest (acc ++ [t])

/-- The `titles` list as it stands when the `try` block of
`_extract_document_titles_from_citations` is left (normally or through the
broad `except`). -/
def titlesPre (rag_response : PyVal) : List PyVal :=
  match (do
    let raw ← citationsOf rag_response
    gatherRefs raw : PyM (List PyVal)) with
  | .error _ => []
  | .ok refs => titlesLoop refs []

/-- `_extract_document_titles_from_citations` (web_app.py lines 74-117):
best-effort title extraction, then order-preserving de-duplication.  The
de-duplication happens after the `try/except`, so an unhashable title makes
the whole call raise (`Except.error`). -/
def _extract_document_titles_from_citations (rag_response : PyVal) : PyM (List PyVal) :=
  dedupSeen (titlesPre rag_response) []

/-- Per-reference candidate name of the PDF extractor (web_app.py lines
134-155): location first (s3 URI preferred over web URL, basename minus query
string, inner `try/except` keeping the raw value), then the metadata
fallback chain `file_name` / `filename` / title keys / `""`. -/
def pdfNameOfRef (ref : PyVal) : PyM PyVal := do
  let lraw ← pyGet (pyOrDict ref) "location" (.vDict [])
  let location := pyOrDict lraw
  let s3loc ← pyGet location "s3Location" (.vDict [])
  let s3_uri ← pyGet (pyOrDict s3loc) "uri" .vNone
  let webloc ← pyGet location "webLocation" (.vDict [])
  let web_url ← pyGet (pyOrDict webloc) "url" .vNone
  let candidate := if pyTruthy s3_uri then s3_uri
    else if pyTruthy web_url then web_url else .vStr ""
  let name :=
    if pyTruthy candidate then
      match candidate with
      | .vStr s => PyVal.vStr (stripAfterQuery (pyBasename s))
      | other => other
    else .vStr ""
  if pyTruthy name then
    return name
  else
    let mraw ← pyGet (pyOrDict ref) "metadata" (.vDict [])
    let metadata := pyOrDict mraw
    let a ← pyGet metadata "file_name" .vNone
    let b ← pyGet metadata "filename" .vNone
    let c ← pyGet metadata "x-amz-bedrock-kb-document-title" .vNone
    let d ← pyGet metadata "x-amzn-bedrock-kb-doc-title" .vNone
    return (if pyTruthy a then a else if pyTruthy b then b
      else if pyTruthy c then c else if pyTruthy d then d else .vStr "")

/-- `if name and name.lower().endswith(".pdf"): filenames.append(name)`:
short-circuit on falsy `name`; `.lower()` raises AttributeError on a truthy
non-string. -/
def pdfFilterName (name : PyVal) : PyM (Option PyVal) :=
  if pyTruthy name then
    match name with
    | .vStr s => .ok (if hasPdfSuffix s then some (.vStr s) else Option.none)
    | _ => .error ()
  else .ok Option.none

/-- The `for ref in retrieved_refs` loop of the PDF extractor. -/
def pdfLoop : List PyVal → List PyVal → List PyVal
  | [], acc => acc
  | ref :: rest, acc =>
    match (do
      let name ← pdfNameOfRef ref
      pdfFilterName name : PyM (Option PyVal)) with
    | .error _ => acc
    | .ok Option.none => pdfLoop rest acc
    | .ok (some v) => pdfLoop rest (acc ++ [v])

/-- The `filenames` list as it stands when the `try` block of
`_extract_pdf_filenames_from_citations` is left. -/
def pdfPre (rag_response : PyVal) : List PyVal :=
  match (do
    let raw ← citationsOf rag_response
    gatherRefs raw : PyM (List PyVal)) with
  | .error _ => []
  | .ok refs => pdfLoop refs []

/-- `_extract_pdf_filenames_from_citations` (web_app.py lines 120-167). -/
def _extract_pdf_filenames_from_citations (rag_response : PyVal) : PyM (List PyVal) :=
  dedupSeen (pdfPre rag_response) []

/-- Python whitespace for `str.lstrip()` / `str.rstrip()` (ASCII part). -/
def pyIsSpaceChar (c : Char) : Bool :=
  decide (c = ' ' ∨ c = '\t' ∨ c = '\n' ∨ c = '\r' ∨ c = '\x0b' ∨ c = '\x0c')

/-- `str.lstrip()`. -/
def pyLstrip (l : List Char) : List Char :=
  l.dropWhile pyIsSpaceChar

/-- `str.rstrip()`. -/
def pyRstrip (l : List Char) : List Char :=
  (l.reverse.dropWhile pyIsSpaceChar).reverse

/-- `" - " in text`. -/
def containsSep : List Char → Bool
  | c₁ :: c₂ :: c₃ :: rest =>
    (c₁ = ' ' && c₂ = '-' && c₃ = ' ') || containsSep (c₂ :: c₃ :: rest)
  | _ => false

/-- `text.replace(" - ", "\n- ")`: left-to-right, non-overlapping. -/
def replaceSep : List Char → List Char
  | c₁ :: c₂ :: c₃ :: rest =>
    if c₁ = ' ' ∧ c₂ = '-' ∧ c₃ = ' ' then '\n' :: '-' :: ' ' :: replaceSep rest
    else c₁ :: replaceSep (c₂ :: c₃ :: rest)
  | l => l

/-- `formatted.lstrip().startswith("- ")`. -/
def startsWithDash : List Char → Bool
  | '-' :: ' ' :: _ => true
  | _ => false

/-- `"**" in text` (used only in proofs about bold-marker removal). -/
def containsStars : List Char → Bool
  | c₁ :: c₂ :: rest => (c₁ = '*' && c₂ = '*') || containsStars (c₂ :: rest)
  | _ => false

/-- `text.replace("**", "")`: left-to-right, non-overlapping. -/
def removeStars : List Char → List Char
  | c₁ :: c₂ :: rest =>
    if c₁ = '*' ∧ c₂ = '*' then removeStars rest
    else c₁ :: removeStars (c₂ :: rest)
  | l => l

/-- `_format_one_line_bullets` (web_app.py lines 170-180), on string input
(the `isinstance` guard is the identity there). -/
def _format_one_line_bullets (text : String) : String :=
  if text = "" then text
  else if containsSep text.data then
    let formatted := String.mk (replaceSep text.data)
    if ¬ startsWithDash (pyLstrip formatted.data) then
      String.mk ('-' :: ' ' :: pyLstrip formatted.data)
    else formatted
  else text

/-- `_remove_bold_markdown` (web_app.py lines 183-187), on string input. -/
def _remove_bold_markdown (text : String) : String :=
  if text = "" then text else String.mk (removeStars text.data)

/-- `", ".join(pdf_filenames)`. -/
def joinComma : List String → String
  | [] => ""
  | [s] => s
  | s :: rest => s ++ ", " ++ joinComma rest

/-- The Unicode separator of `_finalize_output`: paragraph separator
U+2029 followed by line separator U+2028. -/
def paragraph_break : String := "\u2029\u2028"

/-- `_finalize_output` (web_app.py lines 190-204).  `body_text or ""` is
modelled by `Option.getD` (a `None` or empty body becomes `""`); the sources
argument is a list of strings, as produced by the PDF extractor. -/
def _finalize_output (body_text : Option String) (pdf_filenames : List String) : String :=
  let text1 := _format_one_line_bullets (body_text.getD "")
  let text2 := _remove_bold_markdown text1
  let text3 := String.mk (pyRstrip text2.data)
  match pdf_filenames with
  | [] => text3 ++ "\n"
  | _ :: _ => text3 ++ paragraph_break ++ "Sources: " ++ joinComma pdf_filenames ++ "\n"

/-- `s.endswith(t)` (used to state the trailing-newline properties). -/
def strEndsWith (s t : String) : Bool :=
  List.isSuffixOf t.data s.data

/-- Modelled from the spec (§3 SourceList, §8 Dedup stability, glossary
"Stable deduplication"): remove repeated values while preserving the order of
each value's first occurrence, values compared by Python equality
(`pyHashKey`).  Used as the specification side of the dedup-stability claim. -/
def stableDedupSpec : List PyVal → List PyVal
  | [] => []
  | t :: ts => t :: stableDedupSpec (ts.filter (fun u => decide (pyHashKey u ≠ pyHashKey t)))
termination_by l => l.length
decreasing_by simp only [List.length_cons]; exact Nat.lt_succ_of_le (List.length_filter_le _ _)

/-- Mapping shape of the `citations` field: `{"citations": {"retrievedReferences": L}}`. -/
def mapShape (refs : List PyVal) : PyVal :=
  .vDict [("citations", .vDict [("retrievedReferences", .vList refs)])]

/-- Sequence shape of the `citations` field: each group carries its own
`retrievedReferences` list. -/
def seqShape (groups : List (List PyVal)) : PyVal :=
  .vDict [("citations", .vList (groups.map (fun refs =>
    PyVal.vDict [("retrievedReferences", PyVal.vList refs)])))]

/-- A reference whose location is an object-storage URI. -/
def s3Ref (uri : String) : PyVal :=
  .vDict [("location", .vDict [("s3Location", .vDict [("uri", .vStr uri)])])]

/-- A reference whose location is a web URL. -/
def webRef (url : String) : PyVal :=
  .vDict [("location", .vDict [("webLocation", .vDict [("url", .vStr url)])])]

/-! ## Lemmas about bold-marker removal -/

theorem removeStars_cons_of_ne {c : Char} (hc : ¬ c = '*') (r : List Char) :
    removeStars (c :: r) = c :: removeStars r := by
  cases r with
  | nil => rfl
  | cons d rs =>
    simp only [removeStars]
    rw [if_neg (by tauto)]

theorem containsStars_nil : containsStars [] = false := rfl

theorem containsStars_single (c : Char) : containsStars [c] = false := rfl

theorem containsStars_cons_cons (c₁ c₂ : Char) (rest : List Char) :
    containsStars (c₁ :: c₂ :: rest) = ((c₁ = '*' && c₂ = '*') || containsStars (c₂ :: rest)) := rfl

theorem removeStars_noDS (l : List Char) : containsStars (removeStars l) = false := by
  induction l using removeStars.induct with
  | case1 c₁ c₂ rest hstar ih =>
    simp only [removeStars, if_pos hstar]
    exact ih
  | case2 c₁ c₂ rest hstar ih =>
    simp only [removeStars, if_neg hstar]
    by_cases hc₁ : c₁ = '*'
    · have hc₂ : ¬ c₂ = '*' := by tauto
      rw [removeStars_cons_of_ne hc₂] at ih ⊢
      rw [containsStars_cons_cons]
      simp [hc₂, ih]
    · cases hX : removeStars (c₂ :: rest) with
      | nil => simp [containsStars_single]
      | cons d xs =>
        rw [containsStars_cons_cons]
        rw [hX] at ih
        simp [hc₁, ih]
  | case3 l hshort =>
    match l, hshort with
    | [], _ => rfl
    | [c], _ => rfl
    | c₁ :: c₂ :: rest, h => exact absurd rfl (h c₁ c₂ rest)

theorem removeStars_of_noDS (l : List Char) (h : containsStars l = false) :
    removeStars l = l := by
  induction l using removeStars.induct with
  | case1 c₁ c₂ rest hstar ih =>
    rw [containsStars_cons_cons] at h
    simp [hstar.1, hstar.2] at h
  | case2 c₁ c₂ rest hstar ih =>
    rw [containsStars_cons_cons] at h
    simp only [Bool.or_eq_false_iff] at h
    simp only [removeStars, if_neg hstar]
    rw [ih h.2]
  | case3 l hshort =>
    match l, hshort with
    | [], _ => rfl
    | [c], _ => rfl
    | c₁ :: c₂ :: rest, hs => exact absurd rfl (hs c₁ c₂ rest)

/-- C8: bold-marker removal is idempotent: for every string `s`,
`_remove_bold_markdown (_remove_bold_markdown s) = _remove_bold_markdown s`. -/
theorem claim_C8 (s : String) :
    _remove_bold_markdown (_remove_bold_markdown s) = _remove_bold_markdown s := by
  by_cases hs : s = ""
  · subst hs; rfl
  · simp only [_remove_bold_markdown, if_neg hs]
    by_cases h2 : String.mk (removeStars s.data) = ""
    · simp [h2]
    · simp only [if_neg h2]
      show String.mk (removeStars (removeStars s.data)) = String.mk (removeStars s.data)
      rw [removeStars_of_noDS _ (removeStars_noDS s.data)]

/-- C10: when the input of `_format_one_line_bullets` contains the separator
`" - "`, the function replaces every occurrence by a newline bullet; if the
replaced text does not start with `"- "` once leading whitespace is stripped,
`"- "` is prepended to the LEFT-STRIPPED text (discarding the leading
whitespace), and otherwise the replaced text is returned unchanged, leading
whitespace included. -/
theorem claim_C10 (s : String) (hne : s ≠ "") (hsep : containsSep s.data = true) :
    (startsWithDash (pyLstrip (replaceSep s.data)) = false →
      _format_one_line_bullets s = String.mk ('-' :: ' ' :: pyLstrip (replaceSep s.data))) ∧
    (startsWithDash (pyLstrip (replaceSep s.data)) = true →
      _format_one_line_bullets s = String.mk (replaceSep s.data)) := by
  constructor <;> intro h <;>
    simp [_format_one_line_bullets, hne, hsep, h]

/-- C10 witness: `"  intro - a"` becomes `"- intro\n- a"` — the original
leading whitespace is discarded. -/
theorem claim_C10_witness : _format_one_line_bullets "  intro - a" = "- intro\n- a" := by
  have h := (claim_C10 "  intro - a" (by decide) (by rfl)).1 (by rfl)
  rw [h]
  rfl

/-! ## Shape equivalence -/

theorem extendRefs_groups (Ls : List (List PyVal)) (acc : List PyVal) :
    extendRefs (Ls.map (fun refs => PyVal.vDict [("retrievedReferences", PyVal.vList refs)])) acc
      = .ok (acc ++ Ls.flatten) := by
  induction Ls generalizing acc with
  | nil => simp [extendRefs]
  | cons l rest ih =>
    have step : extendRefs ((l :: rest).map
          (fun refs => PyVal.vDict [("retrievedReferences", PyVal.vList refs)])) acc
        = extendRefs (rest.map
          (fun refs => PyVal.vDict [("retrievedReferences", PyVal.vList refs)])) (acc ++ l) := rfl
    rw [step, ih, List.flatten_cons, List.append_assoc]

/-- C4: each extractor returns the same result on the mapping shape
`{"citations": {"retrievedReferences": L}}` as on the sequence shape
`{"citations": [{"retrievedReferences": L1}, ...]}` whose groups concatenate
to `L` — both normalize to the same flat reference list. -/
theorem claim_C4 (Ls : List (List PyVal)) :
    _extract_document_titles_from_citations (mapShape Ls.flatten)
        = _extract_document_titles_from_citations (seqShape Ls) ∧
    _extract_pdf_filenames_from_citations (mapShape Ls.flatten)
        = _extract_pdf_filenames_from_citations (seqShape Ls) := by
  have hmap : (do
      let raw ← citationsOf (mapShape Ls.flatten)
      gatherRefs raw : PyM (List PyVal)) = .ok Ls.flatten := rfl
  have hseq : (do
      let raw ← citationsOf (seqShape Ls)
      gatherRefs raw : PyM (List PyVal)) = .ok Ls.flatten := by
    have step : (do
        let raw ← citationsOf (seqShape Ls)
        gatherRefs raw : PyM (List PyVal))
        = extendRefs (Ls.map
            (fun refs => PyVal.vDict [("retrievedReferences", PyVal.vList refs)])) [] := rfl
    rw [step, extendRefs_groups]
    simp
  constructor
  · unfold _extract_document_titles_from_citations titlesPre
    rw [hmap, hseq]
  · unfold _extract_pdf_filenames_from_citations pdfPre
    rw [hmap, hseq]

/-! ## Location-derived PDF candidate -/

theorem except_bind_ok {α β : Type} (a : α) (f : α → PyM β) :
    (do let x ← (Except.ok a : PyM α); f x) = f a := rfl

theorem except_pure {α : Type} (a : α) : (pure a : PyM α) = Except.ok a := rfl

theorem pdfNameOfRef_s3 (s : String) :
    pdfNameOfRef (s3Ref s) = .ok (.vStr (stripAfterQuery (pyBasename s))) := by
  by_cases hd : s.data = []
  · have hs : s = "" := String.ext (by simpa using hd)
    subst hs
    rfl
  · by_cases hq : (stripAfterQuery (pyBasename s)).data = []
    · have hq' : stripAfterQuery (pyBasename s) = "" := String.ext (by simpa using hq)
      simp [pdfNameOfRef, s3Ref, pyGet, pyOrDict, pyLookup, pyTruthy,
        except_bind_ok, except_pure, hd, hq, hq']
    · simp [pdfNameOfRef, s3Ref, pyGet, pyOrDict, pyLookup, pyTruthy,
        except_bind_ok, except_pure, hd, hq]

theorem pdfNameOfRef_web (s : String) :
    pdfNameOfRef (webRef s) = .ok (.vStr (stripAfterQuery (pyBasename s))) := by
  by_cases hd : s.data = []
  · have hs : s = "" := String.ext (by simpa using hd)
    subst hs
    rfl
  · by_cases hq : (stripAfterQuery (pyBasename s)).data = []
    · have hq' : stripAfterQuery (pyBasename s) = "" := String.ext (by simpa using hq)
      simp [pdfNameOfRef, webRef, pyGet, pyOrDict, pyLookup, pyTruthy,
        except_bind_ok, except_pure, hd, hq, hq']
    · simp [pdfNameOfRef, webRef, pyGet, pyOrDict, pyLookup, pyTruthy,
        except_bind_ok, except_pure, hd, hq]

/-- C7: for a reference whose location carries a storage URI or a web URL, the
candidate filename is the final path segment of that URI/URL (suffix after the
last slash) with any query string (text after the first question mark)
removed; in particular the scenario where a single reference has the s3 URI
"s3://bucket/path/Report.PDF?x=1" extracts exactly ["Report.PDF"]. -/
theorem claim_C7 :
    (∀ s : String, pdfNameOfRef (s3Ref s) = .ok (.vStr (stripAfterQuery (pyBasename s)))) ∧
    (∀ s : String, pdfNameOfRef (webRef s) = .ok (.vStr (stripAfterQuery (pyBasename s)))) ∧
    _extract_pdf_filenames_from_citations (seqShape [[s3Ref "s3://bucket/path/Report.PDF?x=1"]])
      = .ok [.vStr "Report.PDF"] :=
  ⟨pdfNameOfRef_s3, pdfNameOfRef_web, rfl⟩

/-! ## De-duplication lemmas -/

/-- `keyNotSeen seen u`: the de-duplication loop would keep `u` when the set
of already-seen hash keys is `seen` (unhashable values are kept by the filter;
they make `dedupSeen` raise instead). -/
def keyNotSeen (seen : List HKey) (u : PyVal) : Bool :=
  match pyHashKey u with
  | some k => decide (k ∉ seen)
  | Option.none => true

theorem keyNotSeen_nil (u : PyVal) : keyNotSeen [] u = true := by
  cases hk : pyHashKey u <;> simp [keyNotSeen, hk]

theorem keyNotSeen_combine (k : HKey) (seen : List HKey) (t u : PyVal)
    (hk : pyHashKey t = some k) :
    (decide (pyHashKey u ≠ pyHashKey t) && keyNotSeen seen u) = keyNotSeen (k :: seen) u := by
  cases hku : pyHashKey u with
  | none => simp [keyNotSeen, hku, hk]
  | some k2 =>
    by_cases h1 : k2 = k <;> by_cases h2 : k2 ∈ seen <;>
      simp [keyNotSeen, hku, hk, h1, h2]

theorem dedupSeen_ok_eq (l : List PyVal) : ∀ (seen : List HKey) (m : List PyVal),
    dedupSeen l seen = .ok m → m = stableDedupSpec (l.filter (keyNotSeen seen)) := by
  induction l with
  | nil =>
    intro seen m h
    have hm : m = [] := by simpa [dedupSeen] using h.symm
    subst hm
    simp [stableDedupSpec]
  | cons t ts ih =>
    intro seen m h
    cases hk : pyHashKey t with
    | none =>
      have : dedupSeen (t :: ts) seen = .error () := by simp [dedupSeen, hk]
      rw [this] at h
      exact Except.noConfusion h
    | some k =>
      by_cases hks : k ∈ seen
      · have heq : dedupSeen (t :: ts) seen = dedupSeen ts seen := by
          simp [dedupSeen, hk, hks]
        rw [heq] at h
        have hf : List.filter (keyNotSeen seen) (t :: ts) = List.filter (keyNotSeen seen) ts := by
          simp [List.filter_cons, keyNotSeen, hk, hks]
        rw [hf]
        exact ih seen m h
      · have heq : dedupSeen (t :: ts) seen
            = (do
                let rest ← dedupSeen ts (k :: seen)
                .ok (t :: rest) : PyM (List PyVal)) := by
          simp [dedupSeen, hk, hks]
        rw [heq] at h
        cases hr : dedupSeen ts (k :: seen) with
        | error e =>
          rw [hr] at h
          exact Except.noConfusion h
        | ok m2 =>
          rw [hr, except_bind_ok] at h
          have hm : m = t :: m2 := by simpa using h.symm
          subst hm
          have hf : List.filter (keyNotSeen seen) (t :: ts)
              = t :: List.filter (keyNotSeen seen) ts := by
            simp [List.filter_cons, keyNotSeen, hk, hks]
          rw [hf]
          have hspec : stableDedupSpec (t :: List.filter (keyNotSeen seen) ts)
              = t :: stableDedupSpec ((List.filter (keyNotSeen seen) ts).filter
                  (fun u => decide (pyHashKey u ≠ pyHashKey t))) := by
            simp [stableDedupSpec]
          rw [hspec, List.filter_filter]
          have hcong : List.filter
                (fun u => decide (pyHashKey u ≠ pyHashKey t) && keyNotSeen seen u) ts
              = List.filter (keyNotSeen (k :: seen)) ts := by
            apply List.filter_congr
            intro u _
            exact keyNotSeen_combine k seen t u hk
          rw [hcong]
          exact congrArg (t :: ·) (ih (k :: seen) m2 hr)

theorem dedupSeen_ok_nodup (l : List PyVal) : ∀ (seen : List HKey) (m : List PyVal),
    dedupSeen l seen = .ok m →
    (m.map pyHashKey).Nodup ∧ ∀ v ∈ m, ∀ k2, pyHashKey v = some k2 → k2 ∉ seen := by
  induction l with
  | nil =>
    intro seen m h
    have hm : m = [] := by simpa [dedupSeen] using h.symm
    subst hm
    simp
  | cons t ts ih =>
    intro seen m h
    cases hk : pyHashKey t with
    | none =>
      have : dedupSeen (t :: ts) seen = .error () := by simp [dedupSeen, hk]
      rw [this] at h
      exact Except.noConfusion h
    | some k =>
      by_cases hks : k ∈ seen
      · have heq : dedupSeen (t :: ts) seen = dedupSeen ts seen := by
          simp [dedupSeen, hk, hks]
        rw [heq] at h
        exact ih seen m h
      · have heq : dedupSeen (t :: ts) seen
            = (do
                let rest ← dedupSeen ts (k :: seen)
                .ok (t :: rest) : PyM (List PyVal)) := by
          simp [dedupSeen, hk, hks]
        rw [heq] at h
        cases hr : dedupSeen ts (k :: seen) with
        | error e =>
          rw [hr] at h
          exact Except.noConfusion h
        | ok m2 =>
          rw [hr, except_bind_ok] at h
          have hm : m = t :: m2 := by simpa using h.symm
          subst hm
          obtain ⟨hnd, hnotin⟩ := ih (k :: seen) m2 hr
          constructor
          · refine List.Nodup.cons ?_ hnd
            intro hmem
            rcases List.mem_map.mp hmem with ⟨v, hv, hkey⟩
            have := hnotin v hv k (by rw [hkey, hk])
            exact this (List.mem_cons_self k seen)
          · intro v hv k2 hk2
            rcases List.mem_cons.mp hv with h1 | h2
            · subst h1
              rw [hk] at hk2
              injection hk2 with hkk
              subst hkk
              exact hks
            · have := hnotin v h2 k2 hk2
              intro hmem
              exact this (List.mem_cons_of_mem k hmem)

theorem dedupSeen_ok_subset (l : List PyVal) : ∀ (seen : List HKey) (m : List PyVal),
    dedupSeen l seen = .ok m → ∀ v ∈ m, v ∈ l := by
  induction l with
  | nil =>
    intro seen m h
    have hm : m = [] := by simpa [dedupSeen] using h.symm
    subst hm
    simp
  | cons t ts ih =>
    intro seen m h
    cases hk : pyHashKey t with
    | none =>
      have : dedupSeen (t :: ts) seen = .error () := by simp [dedupSeen, hk]
      rw [this] at h
      exact Except.noConfusion h
    | some k =>
      by_cases hks : k ∈ seen
      · have heq : dedupSeen (t :: ts) seen = dedupSeen ts seen := by
          simp [dedupSeen, hk, hks]
        rw [heq] at h
        intro v hv
        exact List.mem_cons_of_mem t (ih seen m h v hv)
      · have heq : dedupSeen (t :: ts) seen
            = (do
                let rest ← dedupSeen ts (k :: seen)
                .ok (t :: rest) : PyM (List PyVal)) := by
          simp [dedupSeen, hk, hks]
        rw [heq] at h
        cases hr : dedupSeen ts (k :: seen) with
        | error e =>
          rw [hr] at h
          exact Except.noConfusion h
        | ok m2 =>
          rw [hr, except_bind_ok] at h
          have hm : m = t :: m2 := by simpa using h.symm
          subst hm
          intro v hv
          rcases List.mem_cons.mp hv with h1 | h2
          · rw [h1]
            exact List.mem_cons_self _ _
          · exact List.mem_cons_of_mem t (ih (k :: seen) m2 hr v h2)

theorem dedupSeen_total (l : List PyVal) : ∀ (seen : List HKey),
    (∀ v ∈ l, (pyHashKey v).isSome) → ∃ m, dedupSeen l seen = .ok m := by
  induction l with
  | nil => intro seen _; exact ⟨[], rfl⟩
  | cons t ts ih =>
    intro seen hall
    have ht := hall t (List.mem_cons_self t ts)
    cases hk : pyHashKey t with
    | none => rw [hk] at ht; simp at ht
    | some k =>
      have hts : ∀ v ∈ ts, (pyHashKey v).isSome :=
        fun v hv => hall v (List.mem_cons_of_mem t hv)
      by_cases hks : k ∈ seen
      · obtain ⟨m, hm⟩ := ih seen hts
        refine ⟨m, ?_⟩
        have heq : dedupSeen (t :: ts) seen = dedupSeen ts seen := by
          simp [dedupSeen, hk, hks]
        rw [heq, hm]
      · obtain ⟨m, hm⟩ := ih (k :: seen) hts
        refine ⟨t :: m, ?_⟩
        have heq : dedupSeen (t :: ts) seen
            = (do
                let rest ← dedupSeen ts (k :: seen)
                .ok (t :: rest) : PyM (List PyVal)) := by
          simp [dedupSeen, hk, hks]
        rw [heq, hm, except_bind_ok]

/-! ## Properties of the PDF extractor pipeline -/

theorem pdfFilterName_ok_some (name v : PyVal)
    (h : pdfFilterName name = .ok (some v)) :
    ∃ s, v = PyVal.vStr s ∧ hasPdfSuffix s = true := by
  unfold pdfFilterName at h
  by_cases ht : pyTruthy name
  · rw [if_pos ht] at h
    cases name with
    | vStr s =>
      by_cases hp : hasPdfSuffix s
      · refine ⟨s, ?_, hp⟩
        simp [hp] at h
        exact h.symm
      · simp [hp] at h
    | vNone => exact Except.noConfusion h
    | vBool b => exact Except.noConfusion h
    | vInt n => exact Except.noConfusion h
    | vList xs => exact Except.noConfusion h
    | vDict kvs => exact Except.noConfusion h
  · rw [if_neg ht] at h
    have := Except.ok.inj h
    exact Option.noConfusion this

theorem pdfLoop_mem (refs : List PyVal) : ∀ (acc : List PyVal),
    (∀ v ∈ acc, ∃ s, v = PyVal.vStr s ∧ hasPdfSuffix s = true) →
    ∀ v ∈ pdfLoop refs acc, ∃ s, v = PyVal.vStr s ∧ hasPdfSuffix s = true := by
  induction refs with
  | nil => intro acc hacc v hv; exact hacc v hv
  | cons ref rest ih =>
    intro acc hacc v hv
    cases hx : (do
        let name ← pdfNameOfRef ref
        pdfFilterName name : PyM (Option PyVal)) with
    | error e =>
      have heq : pdfLoop (ref :: rest) acc = acc := by simp [pdfLoop, hx]
      rw [heq] at hv
      exact hacc v hv
    | ok o =>
      cases o with
      | none =>
        have heq : pdfLoop (ref :: rest) acc = pdfLoop rest acc := by simp [pdfLoop, hx]
        rw [heq] at hv
        exact ih acc hacc v hv
      | some w =>
        have heq : pdfLoop (ref :: rest) acc = pdfLoop rest (acc ++ [w]) := by
          simp [pdfLoop, hx]
        rw [heq] at hv
        refine ih (acc ++ [w]) ?_ v hv
        intro u hu
        rcases List.mem_append.mp hu with h1 | h2
        · exact hacc u h1
        · have hu2 : u = w := by simpa using h2
          rw [hu2]
        -- the appended element comes from a successful pdfFilterName
          cases hn : pdfNameOfRef ref with
          | error e =>
            rw [hn] at hx
            exact Except.noConfusion hx
          | ok name =>
            rw [hn, except_bind_ok] at hx
            exact pdfFilterName_ok_some name w hx

theorem pdfPre_mem (r : PyVal) :
    ∀ v ∈ pdfPre r, ∃ s, v = PyVal.vStr s ∧ hasPdfSuffix s = true := by
  unfold pdfPre
  cases hx : (do
      let raw ← citationsOf r
      gatherRefs raw : PyM (List PyVal)) with
  | error e => simp
  | ok refs =>
    exact pdfLoop_mem refs [] (by simp)

/-- C2: every entry of the list returned by
`_extract_pdf_filenames_from_citations` is a string ending, case-insensitively,
with the suffix `".pdf"`; no candidate lacking that suffix ever appears. -/
theorem claim_C2 (r : PyVal) (l : List PyVal) (v : PyVal)
    (hok : _extract_pdf_filenames_from_citations r = .ok l) (hv : v ∈ l) :
    ∃ s, v = PyVal.vStr s ∧ hasPdfSuffix s = true :=
  pdfPre_mem r v (dedupSeen_ok_subset _ _ _ hok v hv)

/-- C2 witness: the scenario-B extraction yields `"Report.PDF"`, which carries
the `.pdf` suffix case-insensitively. -/
theorem claim_C2_witness :
    ∃ s, PyVal.vStr "Report.PDF" = PyVal.vStr s ∧ hasPdfSuffix s = true :=
  claim_C2 (seqShape [[s3Ref "s3://bucket/path/Report.PDF?x=1"]])
    [PyVal.vStr "Report.PDF"] (PyVal.vStr "Report.PDF") rfl (by simp)

/-- C1 counterexample: on the input
`{"citations": {"retrievedReferences": [{"metadata":
{"x-amz-bedrock-kb-document-title": [1]}}]}}` the titles extractor raises
(the unhashable list title reaches the `set`-based de-duplication, which runs
outside the `try/except`), contradicting the claim that it never raises. -/
theorem claim_C1_counterexample :
    _extract_document_titles_from_citations
      (mapShape [PyVal.vDict [("metadata",
        PyVal.vDict [("x-amz-bedrock-kb-document-title", PyVal.vList [PyVal.vInt 1])])]])
      = .error () := rfl

/-- C1 (amended): `_extract_pdf_filenames_from_citations` returns a list and
never raises, for every input; `_extract_document_titles_from_citations`
returns a list whenever every gathered title is hashable (None/bool/int/str),
but raises when an unhashable title (list/dict) reaches de-duplication. -/
theorem claim_C1 (r : PyVal) :
    (∃ l, _extract_pdf_filenames_from_citations r = .ok l) ∧
    ((∀ t ∈ titlesPre r, (pyHashKey t).isSome) →
      ∃ l, _extract_document_titles_from_citations r = .ok l) := by
  constructor
  · apply dedupSeen_total
    intro v hv
    rcases pdfPre_mem r v hv with ⟨s, rfl, _⟩
    rfl
  · intro h
    exact dedupSeen_total _ _ h

/-- C1 witness: on the empty-dict response both extractors succeed. -/
theorem claim_C1_witness :
    (∃ l, _extract_pdf_filenames_from_citations (PyVal.vDict []) = .ok l) ∧
    (∃ l, _extract_document_titles_from_citations (PyVal.vDict []) = .ok l) :=
  ⟨(claim_C1 (PyVal.vDict [])).1,
   (claim_C1 (PyVal.vDict [])).2 (by
     intro t ht
     rw [show titlesPre (PyVal.vDict []) = [] from rfl] at ht
     exact absurd ht (List.not_mem_nil t))⟩

/-- C3: whenever an extractor returns a list, that list has no duplicate
entries (no two entries equal under Python equality) and equals the stable
first-seen-order de-duplication of the traversed candidates. -/
theorem claim_C3 (r : PyVal) :
    (∀ l, _extract_document_titles_from_citations r = .ok l →
      l.Nodup ∧ (l.map pyHashKey).Nodup ∧ l = stableDedupSpec (titlesPre r)) ∧
    (∀ l, _extract_pdf_filenames_from_citations r = .ok l →
      l.Nodup ∧ (l.map pyHashKey).Nodup ∧ l = stableDedupSpec (pdfPre r)) := by
  have hfil : ∀ (pre : List PyVal), List.filter (keyNotSeen []) pre = pre :=
    fun pre => List.filter_eq_self.mpr (fun a _ => keyNotSeen_nil a)
  constructor
  · intro l hok
    have hnd := (dedupSeen_ok_nodup _ _ _ hok).1
    have heq := dedupSeen_ok_eq _ _ _ hok
    rw [hfil] at heq
    exact ⟨List.Nodup.of_map _ hnd, hnd, heq⟩
  · intro l hok
    have hnd := (dedupSeen_ok_nodup _ _ _ hok).1
    have heq := dedupSeen_ok_eq _ _ _ hok
    rw [hfil] at heq
    exact ⟨List.Nodup.of_map _ hnd, hnd, heq⟩

/-- A reference carrying a given document title in its metadata (used to
instantiate the dedup-stability witness). -/
def titledRef (t : String) : PyVal :=
  .vDict [("metadata", .vDict [("x-amz-bedrock-kb-document-title", .vStr t)])]

/-- C3 witness: on references titled A, A, B the titles extractor returns
[A, B] — each distinct value once, in first-seen order — and that output is
duplicate-free and equals the specification-level stable de-duplication. -/
theorem claim_C3_witness :
    [PyVal.vStr "A", PyVal.vStr "B"].Nodup ∧
    ([PyVal.vStr "A", PyVal.vStr "B"].map pyHashKey).Nodup ∧
    [PyVal.vStr "A", PyVal.vStr "B"]
      = stableDedupSpec (titlesPre (mapShape [titledRef "A", titledRef "A", titledRef "B"])) :=
  (claim_C3 (mapShape [titledRef "A", titledRef "A", titledRef "B"])).1
    [PyVal.vStr "A", PyVal.vStr "B"] rfl

/-! ## Character-level lemmas for the answer formatter -/

theorem containsStars_mono_left (a b : List Char) (h : containsStars a = true) :
    containsStars (a ++ b) = true := by
  induction a with
  | nil => exact absurd h (by simp [containsStars])
  | cons c a2 ih =>
    cases a2 with
    | nil => exact absurd h (by simp [containsStars])
    | cons c2 a3 =>
      rw [containsStars_cons_cons] at h
      rcases Bool.or_eq_true_iff.mp h with h1 | h2
      · show containsStars (c :: c2 :: (a3 ++ b)) = true
        rw [containsStars_cons_cons, h1]
        rfl
      · show containsStars (c :: c2 :: (a3 ++ b)) = true
        rw [containsStars_cons_cons]
        have h3 := ih h2
        rw [List.cons_append] at h3
        rw [h3]
        simp

theorem noDS_prefix (a b : List Char) (h : containsStars (a ++ b) = false) :
    containsStars a = false := by
  cases hc : containsStars a
  · rfl
  · rw [containsStars_mono_left a b hc] at h
    exact absurd h (by simp)

theorem noDS_append (a b : List Char) (ha : containsStars a = false)
    (hb : containsStars b = false)
    (hab : a.getLast? = some '*' → b.head? ≠ some '*') :
    containsStars (a ++ b) = false := by
  induction a with
  | nil => simpa using hb
  | cons c a2 ih =>
    cases a2 with
    | nil =>
      cases b with
      | nil => rfl
      | cons d bs =>
        show containsStars (c :: d :: bs) = false
        rw [containsStars_cons_cons]
        have hcd : (c = '*' && d = '*') = false := by
          by_cases hc : c = '*'
          · have := hab (by simp [hc])
            have hd : ¬ d = '*' := by
              intro hdc
              exact this (by simp [hdc])
            simp [hd]
          · simp [hc]
        rw [hcd]
        simpa using hb
    | cons c2 a3 =>
      show containsStars (c :: c2 :: (a3 ++ b)) = false
      rw [containsStars_cons_cons]
      rw [containsStars_cons_cons] at ha
      rcases Bool.or_eq_false_iff.mp ha with ⟨h1, h2⟩
      rw [h1]
      have ih2 := ih h2 (by
        intro hlast
        apply hab
        rw [List.getLast?_cons_cons]
        exact hlast)
      rw [show (c2 :: a3) ++ b = c2 :: (a3 ++ b) from rfl] at ih2
      rw [ih2]
      rfl

theorem head?_dropWhile_false (p : Char → Bool) (X : List Char) (c : Char)
    (h : (X.dropWhile p).head? = some c) : p c = false := by
  induction X with
  | nil => simp [List.dropWhile] at h
  | cons d ds ih =>
    rw [List.dropWhile_cons] at h
    by_cases hd : p d = true
    · rw [if_pos hd] at h
      exact ih h
    · rw [if_neg hd] at h
      have hdc : d = c := by simpa using h
      rw [← hdc]
      exact Bool.eq_false_iff.mpr hd

theorem pyRstrip_getLast_not_ws (l : List Char) (c : Char)
    (h : (pyRstrip l).getLast? = some c) : pyIsSpaceChar c = false := by
  unfold pyRstrip at h
  rw [List.getLast?_reverse] at h
  exact head?_dropWhile_false pyIsSpaceChar l.reverse c h

theorem pyRstrip_append_rest (l : List Char) : ∃ t, l = pyRstrip l ++ t := by
  refine ⟨(l.reverse.takeWhile pyIsSpaceChar).reverse, ?_⟩
  unfold pyRstrip
  conv_lhs => rw [← List.reverse_reverse l,
    ← List.takeWhile_append_dropWhile pyIsSpaceChar l.reverse]
  rw [List.reverse_append]

theorem strEndsWith_newline (s : String) (W : List Char) (hs : s.data = W ++ ['\n']) :
    strEndsWith s "\n" = true := by
  unfold strEndsWith
  rw [hs]
  show List.isPrefixOf ['\n'].reverse (W ++ ['\n']).reverse = true
  rw [List.reverse_append]
  simp [List.isPrefixOf]

theorem strEndsWith_double_newline_iff (s : String) (W : List Char)
    (hs : s.data = W ++ ['\n']) :
    strEndsWith s "\n\n" = true ↔ W.getLast? = some '\n' := by
  unfold strEndsWith
  rw [hs]
  show List.isPrefixOf ['\n', '\n'].reverse (W ++ ['\n']).reverse = true ↔ _
  rw [List.reverse_append]
  rw [← List.head?_reverse]
  cases hW : W.reverse with
  | nil => simp [List.isPrefixOf]
  | cons c cs =>
    simp [List.isPrefixOf]
    exact eq_comm

theorem getLast?_ne_newline_of_not_endsWith (s : String)
    (h : strEndsWith s "\n" = false) : s.data.getLast? ≠ some '\n' := by
  intro hc
  rcases List.getLast?_eq_some_iff.mp hc with ⟨ys, hys⟩
  rw [strEndsWith_newline s ys hys] at h
  exact Bool.noConfusion h

theorem finalize_data_nil (b : Option String) :
    (_finalize_output b []).data
      = pyRstrip (_remove_bold_markdown (_format_one_line_bullets (b.getD ""))).data
        ++ ['\n'] := by
  show (String.mk (pyRstrip (_remove_bold_markdown
      (_format_one_line_bullets (b.getD ""))).data) ++ "\n").data = _
  rw [String.data_append]

theorem finalize_data_cons (b : Option String) (s0 : String) (rest : List String) :
    (_finalize_output b (s0 :: rest)).data
      = ((pyRstrip (_remove_bold_markdown (_format_one_line_bullets (b.getD ""))).data
          ++ paragraph_break.data) ++ ("Sources: " : String).data
          ++ (joinComma (s0 :: rest)).data) ++ ['\n'] := by
  show (String.mk (pyRstrip (_remove_bold_markdown
        (_format_one_line_bullets (b.getD ""))).data)
      ++ paragraph_break ++ "Sources: " ++ joinComma (s0 :: rest) ++ "\n").data = _
  simp [String.data_append, List.append_assoc]

theorem joinComma_decomp (l : List String) (hne : l ≠ []) :
    ∃ pre last, last ∈ l ∧ (joinComma l).data = pre ++ last.data ∧
      (pre = [] ∨ ∃ q, pre = q ++ [' ']) := by
  induction l with
  | nil => exact absurd rfl hne
  | cons s0 rest ih =>
    cases rest with
    | nil =>
      exact ⟨[], s0, by simp, by simp [joinComma], Or.inl rfl⟩
    | cons s1 rest2 =>
      obtain ⟨pre, last, hmem, hdata, hpre⟩ := ih (by simp)
      refine ⟨s0.data ++ [',', ' '] ++ pre, last, by simp [hmem], ?_, ?_⟩
      · show (s0 ++ ", " ++ joinComma (s1 :: rest2)).data = _
        simp [String.data_append, hdata, List.append_assoc]
      · rcases hpre with h0 | ⟨q, hq⟩
        · exact Or.inr ⟨s0.data ++ [','], by simp [h0]⟩
        · exact Or.inr ⟨s0.data ++ [',', ' '] ++ q, by simp [hq, List.append_assoc]⟩

theorem newline_data : ("\n" : String).data = ['\n'] := rfl

/-- C5 counterexample: with the source list `["a.pdf\n"]` (a source name that
itself ends in a newline) the output of `_finalize_output` ends with `"\n\n"`,
so the claim fails as stated for arbitrary source lists. -/
theorem claim_C5_counterexample :
    strEndsWith (_finalize_output (some "x") ["a.pdf\n"]) "\n\n" = true := rfl

/-- C5 (amended): for every body text and every source list none of whose
entries ends with a newline, the output of `_finalize_output` ends with
exactly one `"\n"` — it ends with `"\n"` and never with `"\n\n"`. -/
theorem claim_C5 (b : Option String) (srcs : List String)
    (h : ∀ src ∈ srcs, strEndsWith src "\n" = false) :
    strEndsWith (_finalize_output b srcs) "\n" = true ∧
    strEndsWith (_finalize_output b srcs) "\n\n" = false := by
  cases srcs with
  | nil =>
    have hd := finalize_data_nil b
    refine ⟨strEndsWith_newline _ _ hd, ?_⟩
    rw [Bool.eq_false_iff]
    intro hcontra
    have hlast := (strEndsWith_double_newline_iff _ _ hd).mp hcontra
    have hws := pyRstrip_getLast_not_ws _ _ hlast
    simp [pyIsSpaceChar] at hws
  | cons s0 rest =>
    have hd := finalize_data_cons b s0 rest
    refine ⟨strEndsWith_newline _ _ hd, ?_⟩
    rw [Bool.eq_false_iff]
    intro hcontra
    have hlast := (strEndsWith_double_newline_iff _ _ hd).mp hcontra
    obtain ⟨pre, last, hmem, hJ, hpre⟩ := joinComma_decomp (s0 :: rest) (by simp)
    rw [hJ] at hlast
    by_cases hld : last.data = []
    · rw [hld, List.append_nil] at hlast
      rcases hpre with h0 | ⟨q, hq⟩
      · rw [h0, List.append_nil] at hlast
        rw [List.getLast?_append_of_ne_nil _
          (by decide : ("Sources: " : String).data ≠ [])] at hlast
        exact absurd hlast (by decide)
      · rw [hq, ← List.append_assoc] at hlast
        rw [List.getLast?_concat] at hlast
        exact absurd hlast (by decide)
    · rw [← List.append_assoc] at hlast
      rw [List.getLast?_append_of_ne_nil _ hld] at hlast
      exact getLast?_ne_newline_of_not_endsWith last (h last hmem) hlast

/-- C5 witness: with body `"x"` and the source `"a.pdf"` the output ends with
exactly one newline. -/
theorem claim_C5_witness :
    strEndsWith (_finalize_output (some "x") ["a.pdf"]) "\n" = true ∧
    strEndsWith (_finalize_output (some "x") ["a.pdf"]) "\n\n" = false :=
  claim_C5 (some "x") ["a.pdf"] (by
    intro src hsrc
    have hs : src = "a.pdf" := by simpa using hsrc
    rw [hs]
    rfl)

theorem removeBold_noDS (t : String) :
    containsStars (_remove_bold_markdown t).data = false := by
  by_cases ht : t = ""
  · rw [ht]; rfl
  · simp only [_remove_bold_markdown, if_neg ht]
    exact removeStars_noDS t.data

theorem joinComma_noDS (l : List String) (h : ∀ s ∈ l, containsStars s.data = false) :
    containsStars (joinComma l).data = false := by
  induction l with
  | nil => rfl
  | cons s0 rest ih =>
    cases rest with
    | nil => exact h s0 (by simp)
    | cons s1 rest2 =>
      have hrest := ih (fun s hs => h s (List.mem_cons_of_mem s0 hs))
      show containsStars ((s0 ++ ", ") ++ joinComma (s1 :: rest2)).data = false
      rw [String.data_append]
      have ha1 : containsStars (s0 ++ ", ").data = false := by
        rw [show (s0 ++ ", ").data = s0.data ++ [',', ' '] from by rw [String.data_append]]
        exact noDS_append _ _ (h s0 (by simp)) (by decide) (fun _ => by decide)
      apply noDS_append _ _ ha1 hrest
      intro hcontra
      rw [show (s0 ++ ", ").data = s0.data ++ [',', ' '] from by rw [String.data_append]]
        at hcontra
      rw [List.getLast?_append_of_ne_nil _ (by decide : ([',', ' '] : List Char) ≠ [])]
        at hcontra
      exact absurd hcontra (by decide)

/-- C6 counterexample: with the source list `["**.pdf"]` the final output of
`_finalize_output` contains the two-character sequence `"**"` (source names
are appended verbatim), so the claim fails as stated for arbitrary source
lists. -/
theorem claim_C6_counterexample :
    containsStars (_finalize_output (some "") ["**.pdf"]).data = true := rfl

/-- C6 (amended): for every body text and every source list none of whose
entries contains `"**"`, the output of `_finalize_output` contains no
occurrence of `"**"` — the body is stripped of bold markers and the appended
Sources paragraph introduces none. -/
theorem claim_C6 (b : Option String) (srcs : List String)
    (h : ∀ src ∈ srcs, containsStars src.data = false) :
    containsStars (_finalize_output b srcs).data = false := by
  obtain ⟨t, ht⟩ := pyRstrip_append_rest
    (_remove_bold_markdown (_format_one_line_bullets (b.getD ""))).data
  have hA : containsStars (pyRstrip
      (_remove_bold_markdown (_format_one_line_bullets (b.getD ""))).data) = false := by
    apply noDS_prefix _ t
    rw [← ht]
    exact removeBold_noDS _
  cases srcs with
  | nil =>
    rw [finalize_data_nil]
    exact noDS_append _ _ hA (by decide) (fun _ => by decide)
  | cons s0 rest =>
    rw [finalize_data_cons]
    apply noDS_append _ _ ?_ (by decide) (fun _ => by decide)
    have h1 : containsStars (pyRstrip
        (_remove_bold_markdown (_format_one_line_bullets (b.getD ""))).data
        ++ paragraph_break.data) = false :=
      noDS_append _ _ hA (by decide) (fun _ => by decide)
    have h2 : containsStars ((pyRstrip
        (_remove_bold_markdown (_format_one_line_bullets (b.getD ""))).data
        ++ paragraph_break.data) ++ ("Sources: " : String).data) = false :=
      noDS_append _ _ h1 (by decide) (fun _ => by decide)
    apply noDS_append _ _ h2 (joinComma_noDS _ h)
    intro hcontra
    rw [List.getLast?_append_of_ne_nil _
      (by decide : ("Sources: " : String).data ≠ [])] at hcontra
    exact absurd hcontra (by decide)

/-- C6 witness: with a bold body and plain sources no `"**"` remains. -/
theorem claim_C6_witness :
    containsStars (_finalize_output (some "**Bold** text") ["a.pdf", "b.pdf"]).data = false :=
  claim_C6 (some "**Bold** text") ["a.pdf", "b.pdf"] (by
    intro src hsrc
    rcases List.mem_cons.mp hsrc with h1 | h2
    · rw [h1]; rfl
    · have hs : src = "b.pdf" := by simpa using h2
      rw [hs]; rfl)

/-- C9: `_finalize_output` is total on any string-or-None body with any list
of string sources (it is a Lean function, so it cannot raise); its output is
never empty and always ends with a newline; a `None` or empty body with no
sources yields exactly `"\n"`, and with sources the Sources paragraph still
follows. -/
theorem claim_C9 (b : Option String) (srcs : List String) :
    _finalize_output b srcs ≠ "" ∧
    strEndsWith (_finalize_output b srcs) "\n" = true ∧
    ((b = Option.none ∨ b = Option.some "") →
      (srcs = [] → _finalize_output b srcs = "\n") ∧
      (srcs ≠ [] → _finalize_output b srcs
        = paragraph_break ++ "Sources: " ++ joinComma srcs ++ "\n")) := by
  have hshape : ∃ W, (_finalize_output b srcs).data = W ++ ['\n'] := by
    cases srcs with
    | nil => exact ⟨_, finalize_data_nil b⟩
    | cons s0 rest => exact ⟨_, finalize_data_cons b s0 rest⟩
  obtain ⟨W, hW⟩ := hshape
  refine ⟨?_, strEndsWith_newline _ _ hW, ?_⟩
  · intro hcontra
    have h2 : W ++ ['\n'] = [] := by
      rw [← hW, hcontra]
    simp at h2
  · intro hb
    constructor
    · intro hsrc
      subst hsrc
      rcases hb with rfl | rfl <;> rfl
    · intro hsrc
      cases srcs with
      | nil => exact absurd rfl hsrc
      | cons s0 rest =>
        have hempty : pyRstrip (_remove_bold_markdown
            (_format_one_line_bullets (b.getD ""))).data = [] := by
          rcases hb with rfl | rfl <;> rfl
        apply String.ext
        rw [finalize_data_cons, hempty]
        simp [String.data_append, List.append_assoc, newline_data]

/-- C9 witness: the empty response with no sources formats to exactly a
newline and is non-empty. -/
theorem claim_C9_witness :
    _finalize_output Option.none [] ≠ "" ∧ _finalize_output Option.none [] = "\n" :=
  ⟨(claim_C9 Option.none []).1, ((claim_C9 Option.none []).2.2 (Or.inl rfl)).1 rfl⟩
